import Mathlib

/-!
Shallow embedding of the platsat core layer:
* `src/platsat/src/intmap.rs` — `IntMap` (dense index map), `IntMapBool`
  (bit-packed boolean map), `IntSet` (insertion-ordered set);
* `src/platsat/src/theory.rs` — `EmptyTheory`, `ClauseRef` and its `Debug`
  rendering.

Keys (`K: AsIndex`) are bijectively index-convertible, so they are embedded
directly as their dense index, a `Nat`.  Machine `usize` values stay `Nat`
(no container ever shrinks an index below zero and no arithmetic overflows
in the embedded operations).  Operations that panic in Rust (out-of-bounds
reads and writes) are embedded as `Option`-returning functions, `none`
standing for the panic.
-/

namespace Platsat

/-- `IntMap<K,V>`: growable array-backed total map, `map: Vec<V>`
(`intmap.rs` line 33).  Capacity is not modelled: it is not observable
through the public operations. -/
structure IntMap (V : Type) where
  map : List V
deriving Repr, DecidableEq

namespace IntMap

/-- `IntMap::new` / `Default`: empty backing vector. -/
def new (V : Type) : IntMap V := ⟨[]⟩

/-- `IntMap::has`: `k.as_index() < self.map.len()`. -/
def has (s : IntMap V) (k : Nat) : Bool :=
  k < s.map.length

/-- `IntMap::reserve`: if `index >= len` resize to `index + 1`, filling the
new slots with clones of `pad`. -/
def reserve (s : IntMap V) (k : Nat) (pad : V) : IntMap V :=
  if k ≥ s.map.length then
    ⟨s.map ++ List.replicate (k + 1 - s.map.length) pad⟩
  else s

/-- `IntMap::reserve_default`: same growth, filling with `V::default()`. -/
def reserve_default [Inhabited V] (s : IntMap V) (k : Nat) : IntMap V :=
  if k ≥ s.map.length then
    ⟨s.map ++ List.replicate (k + 1 - s.map.length) (default : V)⟩
  else s

/-- Indexed read, `ops::Index`: `&self.map[index.as_index()]`; panics
(`none`) when `has` does not hold. -/
def read? (s : IntMap V) (k : Nat) : Option V :=
  s.map[k]?

/-- Indexed write, `ops::IndexMut`: `self[key] = val`; panics (`none`) when
`has` does not hold. -/
def write? (s : IntMap V) (k : Nat) (v : V) : Option (IntMap V) :=
  if k < s.map.length then some ⟨s.map.set k v⟩ else none

/-- `IntMap::insert`: `reserve(key, pad); self[key] = val`.  After the
reserve the write is always in bounds. -/
def insert (s : IntMap V) (k : Nat) (v : V) (pad : V) : IntMap V :=
  ⟨(s.reserve k pad).map.set k v⟩

/-- `IntMap::insert_default`: `reserve_default(key); self[key] = val`. -/
def insert_default [Inhabited V] (s : IntMap V) (k : Nat) (v : V) : IntMap V :=
  ⟨(s.reserve_default k).map.set k v⟩

/-- `IntMap::clear`: clear content, keep buffers. -/
def clear (s : IntMap V) : IntMap V := ⟨[]⟩

/-- `IntMap::free`: clear content, free memory (`clear` +
`shrink_to_fit`; capacity is unobservable, so the state coincides with
`clear`). -/
def free (s : IntMap V) : IntMap V := ⟨[]⟩

/-- `IntMap::iter`: `self.map.iter().enumerate()` with the position mapped
back through `K::from_index` — the list of `(index, value)` pairs in
ascending index order. -/
def iter (s : IntMap V) : List (Nat × V) :=
  s.map.enum

end IntMap

/-- `IntMapBool<K>`: bit-packed boolean map, `map: BitVec`
(`intmap.rs` line 130). -/
structure IntMapBool where
  map : List Bool
deriving Repr, DecidableEq

namespace IntMapBool

/-- `IntMapBool::new`: empty bit vector. -/
def new : IntMapBool := ⟨[]⟩

/-- `IntMapBool::has`: `k.as_index() < self.map.len()`. -/
def has (s : IntMapBool) (k : Nat) : Bool :=
  k < s.map.length

/-- Indexed read, `ops::Index`: `&self.map[index.as_index()]`; panics
(`none`) out of bounds. -/
def read? (s : IntMapBool) (k : Nat) : Option Bool :=
  s.map[k]?

/-- `IntMapBool::set`: `self.map.set(k.as_index(), b)`; `BitVec::set`
panics (`none`) when the index is out of bounds. -/
def set (s : IntMapBool) (k : Nat) (b : Bool) : Option IntMapBool :=
  if k < s.map.length then some ⟨s.map.set k b⟩ else none

/-- `IntMapBool::reserve`: if `index >= len` grow by `index - len + 1`
bits, all `false`. -/
def reserve (s : IntMapBool) (k : Nat) : IntMapBool :=
  if k ≥ s.map.length then
    ⟨s.map ++ List.replicate (k - s.map.length + 1) false⟩
  else s

/-- `IntMapBool::clear`. -/
def clear (s : IntMapBool) : IntMapBool := ⟨[]⟩

/-- `IntMapBool::free` (`clear` + `shrink_to_fit`). -/
def free (s : IntMapBool) : IntMapBool := ⟨[]⟩

/-- `IntMapBool::insert`: `reserve(key); self.map.set(key, true)`.  After
the reserve the set is always in bounds. -/
def insert (s : IntMapBool) (k : Nat) : IntMapBool :=
  ⟨(s.reserve k).map.set k true⟩

end IntMapBool

/-- `IntSet<K>`: membership bitset plus keys in first-insertion order
(`intmap.rs` line 187). -/
structure IntSet where
  in_set : IntMapBool
  xs : List Nat
deriving Repr, DecidableEq

namespace IntSet

/-- `IntSet::new` / `Default`. -/
def new : IntSet := ⟨IntMapBool.new, []⟩

/-- `IntSet::len`: `self.xs.len()`. -/
def len (s : IntSet) : Nat := s.xs.length

/-- `IntSet::clear`: `self.in_set.clear(); self.xs.clear()`. -/
def clear (s : IntSet) : IntSet := ⟨s.in_set.clear, []⟩

/-- `IntSet::as_slice`: `&self.xs`. -/
def as_slice (s : IntSet) : List Nat := s.xs

/-- `IntSet::insert`: reserve `k` in the bitset; if the bit is unset, set
it and push `k`.  The read `self.in_set[k]` is in bounds after the
reserve, so `getD` never supplies its fallback. -/
def insert (s : IntSet) (k : Nat) : IntSet :=
  let m := s.in_set.reserve k
  if (m.read? k).getD false then ⟨m, s.xs⟩
  else ⟨⟨m.map.set k true⟩, s.xs ++ [k]⟩

/-- `IntSet::has`: `self.in_set.has(k) && self.in_set[k]` — the `&&`
short-circuits, so the read only happens in bounds and `has` is total. -/
def has (s : IntSet) (k : Nat) : Bool :=
  s.in_set.has k && (s.in_set.read? k).getD false

end IntSet

/-- Modelled from the spec: `Lit` is defined in `clause.rs`, which is not
among the given sources; the spec treats literals as opaque, bijectively
index-convertible keys, so a literal is embedded as its index. -/
def Lit : Type := Nat

/-- Modelled from the spec: `TheoryArg` is defined in `core.rs`, which is
not among the given sources.  The spec describes it as a transient view
exposing the current trail/model together with the conflict output written
through `raise_conflict`. -/
structure TheoryArg where
  model : List Lit
  conflict : Option (List Lit)

/-- Modelled from the spec: `ExplainTheoryArg` is defined in `core.rs`,
which is not among the given sources.  The spec describes it as a
call-scoped view holding a scratch output buffer for the returned
explanation clause. -/
structure ExplainTheoryArg where
  scratch : List Lit

/-- `EmptyTheory(usize)` (`theory.rs` line 108): the no-op theory whose
only state is its level counter. -/
structure EmptyTheory where
  levels : Nat
deriving Repr, DecidableEq

namespace EmptyTheory

/-- `EmptyTheory::new()`: `EmptyTheory(0)`. -/
def new : EmptyTheory := ⟨0⟩

/-- `EmptyTheory::create_level`: `self.0 += 1`. -/
def create_level (t : EmptyTheory) : EmptyTheory := ⟨t.levels + 1⟩

/-- `EmptyTheory::pop_levels`: `debug_assert!(self.0 >= n); self.0 -= n`.
Popping more levels than exist trips the assertion / underflows the
`usize` subtraction — a contract violation, embedded as `none`. -/
def pop_levels (t : EmptyTheory) (n : Nat) : Option EmptyTheory :=
  if n ≤ t.levels then some ⟨t.levels - n⟩ else none

/-- `EmptyTheory::n_levels`: `self.0`. -/
def n_levels (t : EmptyTheory) : Nat := t.levels

/-- `EmptyTheory::final_check`: empty body — theory state and argument are
both returned unchanged. -/
def final_check (t : EmptyTheory) (acts : TheoryArg) : EmptyTheory × TheoryArg :=
  (t, acts)

/-- `Theory::partial_check` default implementation (`theory.rs` line 39),
inherited by `EmptyTheory`: "just returns without doing anything". -/
def pcheck (t : EmptyTheory) (acts : TheoryArg) : EmptyTheory × TheoryArg :=
  (t, acts)

/-- `EmptyTheory::explain_propagation_clause`: `unreachable!()` for every
literal — the panic is embedded as `none`. -/
def explain_propagation_clause (t : EmptyTheory) (p : Lit)
    (st : ExplainTheoryArg) : Option (List Lit) :=
  none

end EmptyTheory

/-- One host-issued level operation on the theory (§4.5 state machine). -/
inductive TheoryOp where
  | create
  | pop (n : Nat)
deriving Repr, DecidableEq

/-- Run a sequence of level operations against `EmptyTheory`, propagating
the contract violation (`none`) of any out-of-range `pop_levels`. -/
def runTheoryOps (t : EmptyTheory) : List TheoryOp → Option EmptyTheory
  | [] => some t
  | TheoryOp.create :: rest => runTheoryOps t.create_level rest
  | TheoryOp.pop n :: rest =>
    match t.pop_levels n with
    | some t2 => runTheoryOps t2 rest
    | none => none

/-- Number of `create_level` calls in an operation sequence. -/
def createCount : List TheoryOp → Nat
  | [] => 0
  | TheoryOp.create :: rest => createCount rest + 1
  | TheoryOp.pop _ :: rest => createCount rest

/-- Sum of the `pop_levels` arguments in an operation sequence. -/
def popSum : List TheoryOp → Nat
  | [] => 0
  | TheoryOp.create :: rest => popSum rest
  | TheoryOp.pop n :: rest => n + popSum rest

/-- `ClauseRef` (`theory.rs` line 87): transparent wrapper around the
allocator's `CRef`, a 32-bit clause address (`must_cast` targets `u32`). -/
structure ClauseRef where
  val : Nat
deriving Repr, DecidableEq

namespace ClauseRef

/-- Modelled from the spec: `CRef::UNDEF` lives in `clause.rs`, absent
from the sources; the spec fixes only that the two sentinels are distinct
reserved fixed-width bit patterns never issued for a live clause, so the
top 32-bit pattern is taken for `UNDEF`. -/
def UNDEF : ClauseRef := ⟨2 ^ 32 - 1⟩

/-- Modelled from the spec: `CRef::SPECIAL` lives in `clause.rs`, absent
from the sources; the second-from-top 32-bit pattern is taken, distinct
from `UNDEF`. -/
def SPECIAL : ClauseRef := ⟨2 ^ 32 - 2⟩

/-- `impl Debug for ClauseRef` (`theory.rs` lines 89–100): the sentinels
render as the symbolic tokens, any other handle as `"cr"` followed by the
decimal form of its bit-identical underlying integer. -/
def fmtDebug (c : ClauseRef) : String :=
  if c = UNDEF then "crUNDEF"
  else if c = SPECIAL then "crSPECIAL"
  else "cr" ++ Nat.repr c.val

end ClauseRef

/-- One mutating public call on an `IntMap`: the four growth/write entry
points `reserve`, `reserve_default`, `insert`, `insert_default`. -/
inductive MapOp (V : Type) where
  | reserve (k : Nat) (pad : V)
  | reserveD (k : Nat)
  | ins (k : Nat) (v : V) (pad : V)
  | insD (k : Nat) (v : V)
deriving Repr, DecidableEq

/-- The key an operation addresses. -/
def MapOp.key : MapOp V → Nat
  | .reserve k _ => k
  | .reserveD k => k
  | .ins k _ _ => k
  | .insD k _ => k

/-- The value an operation pads newly grown slots with: the caller's `pad`
for `reserve`/`insert`, `V::default()` for the `_default` variants. -/
def MapOp.padVal [Inhabited V] : MapOp V → V
  | .reserve _ p => p
  | .reserveD _ => default
  | .ins _ _ p => p
  | .insD _ _ => default

/-- Apply one operation to the map state. -/
def applyMapOp [Inhabited V] (s : IntMap V) : MapOp V → IntMap V
  | .reserve k pad => s.reserve k pad
  | .reserveD k => s.reserve_default k
  | .ins k v pad => s.insert k v pad
  | .insD k v => s.insert_default k v

/-- Run a sequence of map operations left to right. -/
def runMapOps [Inhabited V] (s : IntMap V) (ops : List (MapOp V)) : IntMap V :=
  ops.foldl applyMapOp s

/-- All keys addressed by a sequence of operations. -/
def mapOpKeys (ops : List (MapOp V)) : List Nat :=
  ops.map MapOp.key

/-- The keys explicitly written (targets of `insert`/`insert_default`);
`reserve` only pads and never writes. -/
def writeKeys : List (MapOp V) → List Nat
  | [] => []
  | MapOp.ins k _ _ :: rest => k :: writeKeys rest
  | MapOp.insD k _ :: rest => k :: writeKeys rest
  | MapOp.reserve _ _ :: rest => writeKeys rest
  | MapOp.reserveD _ :: rest => writeKeys rest

/-- The pad value slot `i` received when the map (of current length `len`)
was first grown to cover `i` by the given operation sequence; `none` if the
sequence never grows past `i`. -/
def padAt [Inhabited V] : List (MapOp V) → Nat → Nat → Option V
  | [], _, _ => none
  | op :: rest, len, i =>
    if len ≤ i ∧ i ≤ op.key then some op.padVal
    else padAt rest (max len (op.key + 1)) i

/-- Run a sequence of `IntSet::insert` calls left to right. -/
def runInserts (s : IntSet) (l : List Nat) : IntSet :=
  l.foldl IntSet.insert s

/-- Append `k` unless already present: the specification's step for an
insertion-ordered set. -/
def insFirst (acc : List Nat) (k : Nat) : List Nat :=
  if k ∈ acc then acc else acc ++ [k]

/-- The distinct keys of `l` in order of first occurrence. -/
def dedupFirst (l : List Nat) : List Nat :=
  l.foldl insFirst []

/-! ### Helper lemmas -/

theorem runTheoryOps_levels (ops : List TheoryOp) (t u : EmptyTheory)
    (h : runTheoryOps t ops = some u) :
    (u.levels : Int) = t.levels + createCount ops - popSum ops := by
  induction ops generalizing t with
  | nil =>
    simp only [runTheoryOps, Option.some.injEq] at h
    subst h
    simp [createCount, popSum]
  | cons op rest ih =>
    cases op with
    | create =>
      simp only [runTheoryOps] at h
      have := ih _ h
      simp only [createCount, popSum, EmptyTheory.create_level] at *
      push_cast at *
      omega
    | pop n =>
      simp only [runTheoryOps, EmptyTheory.pop_levels] at h
      by_cases hn : n ≤ t.levels
      · rw [if_pos hn] at h
        have := ih _ h
        simp only [createCount, popSum] at *
        have hcast : ((t.levels - n : Nat) : Int) = (t.levels : Int) - n :=
          Int.ofNat_sub hn
        push_cast at *
        omega
      · rw [if_neg hn] at h
        exact absurd h (by simp)

theorem IntMapBool.reserve_length (s : IntMapBool) (k : Nat) :
    (s.reserve k).map.length = max s.map.length (k + 1) := by
  simp only [IntMapBool.reserve]
  split <;> simp_all <;> omega

theorem IntMapBool.reserve_read_lt (s : IntMapBool) (k j : Nat)
    (h : j < s.map.length) :
    (s.reserve k).read? j = s.read? j := by
  simp only [IntMapBool.reserve, IntMapBool.read?]
  split
  · exact List.getElem?_append_left h
  · rfl

theorem IntMapBool.reserve_read_new (s : IntMapBool) (k j : Nat)
    (h1 : s.map.length ≤ j) (h2 : j ≤ k) :
    (s.reserve k).read? j = some false := by
  simp only [IntMapBool.reserve, IntMapBool.read?]
  rw [if_pos (by omega)]
  rw [List.getElem?_append_right h1]
  have hlt : j - s.map.length < k - s.map.length + 1 := by omega
  simp [hlt]

theorem IntSet.insert_cond (s : IntSet) (k : Nat) :
    ((s.in_set.reserve k).read? k).getD false = s.has k := by
  by_cases hk : k < s.in_set.map.length
  · rw [IntMapBool.reserve_read_lt _ _ _ hk]
    simp [IntSet.has, IntMapBool.has, hk]
  · rw [IntMapBool.reserve_read_new _ _ _ (Nat.not_lt.mp hk) (le_refl k)]
    simp [IntSet.has, IntMapBool.has, hk]

theorem IntSet.insert_xs (s : IntSet) (k : Nat) :
    (s.insert k).xs = if s.has k = true then s.xs else s.xs ++ [k] := by
  simp only [IntSet.insert, IntSet.insert_cond]
  cases h : s.has k <;> simp [h]

theorem IntSet.insert_has (s : IntSet) (j k : Nat) :
    (s.insert k).has j = (s.has j || decide (j = k)) := by
  have hmlen := IntMapBool.reserve_length s.in_set k
  simp only [IntSet.insert, IntSet.insert_cond]
  by_cases h : s.has k = true
  · rw [if_pos h]
    by_cases hj : j < s.in_set.map.length
    · have hhasj : (s.in_set.reserve k).has j = true := by
        simp only [IntMapBool.has, decide_eq_true_eq]
        omega
      have hsj : s.has j = ((s.in_set.read? j).getD false) := by
        simp [IntSet.has, IntMapBool.has, hj]
      by_cases hjk : j = k
      · subst hjk
        simp only [IntSet.has] at *
        rw [IntMapBool.reserve_read_lt _ _ _ hj] at *
        simp only [IntSet.has, hhasj]
        simp only [IntSet.has, IntMapBool.has, decide_eq_true_eq] at h ⊢
        simp [h, hsj ▸ h]
      · have hb : s.in_set.has j = true := by
          simp [IntMapBool.has, hj]
        simp only [IntSet.has, hhasj, Bool.true_and]
        rw [IntMapBool.reserve_read_lt _ _ _ hj]
        simp [hsj, hjk, IntSet.has, hb]
    · have hsj : s.has j = false := by
        simp [IntSet.has, IntMapBool.has, hj]
      have hjk : j ≠ k := by
        intro he
        subst he
        rw [hsj] at h
        exact Bool.noConfusion h
      rw [hsj, Bool.false_or]
      by_cases hjk2 : j ≤ k
      · simp only [IntSet.has]
        rw [IntMapBool.reserve_read_new _ _ _ (Nat.not_lt.mp hj) hjk2]
        simp [hjk]
      · have : (s.in_set.reserve k).has j = false := by
          simp only [IntMapBool.has, decide_eq_false_iff_not, Nat.not_lt]
          omega
        simp [IntSet.has, this, hjk]
  · rw [if_neg h]
    have hk1 : k < (s.in_set.reserve k).map.length := by omega
    by_cases hjk : j = k
    · subst hjk
      have hread : (⟨(s.in_set.reserve j).map.set j true⟩ :
          IntMapBool).read? j = some true := by
        simp only [IntMapBool.read?]
        exact List.getElem?_set_eq_of_lt true (by simpa using hk1)
      simp [IntSet.has, IntMapBool.has, hread, hk1, h]
    · have hread : (⟨(s.in_set.reserve k).map.set k true⟩ :
          IntMapBool).read? j = (s.in_set.reserve k).read? j := by
        simp only [IntMapBool.read?]
        exact List.getElem?_set_ne (fun he => hjk he.symm)
      by_cases hj : j < s.in_set.map.length
      · have hhasj : j < (s.in_set.reserve k).map.length := by omega
        simp only [IntSet.has, IntMapBool.has, List.length_set, hread]
        rw [IntMapBool.reserve_read_lt _ _ _ hj]
        simp [hj, hhasj, hjk]
      · have hsj : s.has j = false := by
          simp [IntSet.has, IntMapBool.has, hj]
        rw [hsj, Bool.false_or]
        by_cases hjk2 : j ≤ k
        · simp only [IntSet.has, IntMapBool.has, List.length_set, hread]
          rw [IntMapBool.reserve_read_new _ _ _ (Nat.not_lt.mp hj) hjk2]
          simp [hjk]
        · have hout : ¬ j < (s.in_set.reserve k).map.length := by omega
          simp [IntSet.has, IntMapBool.has, List.length_set, hout, hjk]

/-- The `IntSet` representation invariant (§3): the ordered list is
duplicate-free and contains exactly the keys whose membership bit is
set. -/
def SetInv (s : IntSet) : Prop :=
  s.xs.Nodup ∧ ∀ j, s.has j = true ↔ j ∈ s.xs

theorem setInv_new : SetInv IntSet.new := by
  refine ⟨List.nodup_nil, fun j => ?_⟩
  simp [IntSet.new, IntSet.has, IntMapBool.new, IntMapBool.has]

theorem setInv_insert (s : IntSet) (k : Nat) (h : SetInv s) :
    SetInv (s.insert k) ∧ (s.insert k).xs = insFirst s.xs k := by
  obtain ⟨hnd, hmem⟩ := h
  have hxs := IntSet.insert_xs s k
  have hcond : (s.has k = true) ↔ k ∈ s.xs := hmem k
  have hxs2 : (s.insert k).xs = insFirst s.xs k := by
    rw [hxs, insFirst]
    by_cases hk : k ∈ s.xs
    · rw [if_pos (hcond.mpr hk), if_pos hk]
    · rw [if_neg (fun hh => hk (hcond.mp hh)), if_neg hk]
  refine ⟨⟨?_, fun j => ?_⟩, hxs2⟩
  · rw [hxs2, insFirst]
    by_cases hk : k ∈ s.xs
    · simpa [hk] using hnd
    · simp only [hk, if_false]
      rw [List.nodup_append]
      exact ⟨hnd, List.nodup_singleton k,
        by simpa [List.disjoint_singleton] using hk⟩
  · rw [IntSet.insert_has, hxs2, insFirst]
    by_cases hk : k ∈ s.xs
    · have : s.has k = true := hcond.mpr hk
      simp only [hk, if_true]
      constructor
      · intro hh
        rcases Bool.or_eq_true_iff.mp hh with h1 | h2
        · exact (hmem j).mp h1
        · rw [decide_eq_true_eq] at h2; subst h2; exact hk
      · intro hh
        exact Bool.or_eq_true_iff.mpr (Or.inl ((hmem j).mpr hh))
    · simp only [hk, if_false, List.mem_append, List.mem_singleton]
      constructor
      · intro hh
        rcases Bool.or_eq_true_iff.mp hh with h1 | h2
        · exact Or.inl ((hmem j).mp h1)
        · rw [decide_eq_true_eq] at h2; exact Or.inr h2
      · intro hh
        rcases hh with h1 | h2
        · exact Bool.or_eq_true_iff.mpr (Or.inl ((hmem j).mpr h1))
        · exact Bool.or_eq_true_iff.mpr (Or.inr (by simpa using h2))

theorem runInserts_spec (l : List Nat) (s : IntSet) (h : SetInv s) :
    SetInv (runInserts s l) ∧
      (runInserts s l).xs = l.foldl insFirst s.xs := by
  induction l generalizing s with
  | nil => exact ⟨h, rfl⟩
  | cons k rest ih =>
    obtain ⟨hinv, hxs⟩ := setInv_insert s k h
    obtain ⟨hinv2, hxs2⟩ := ih (s.insert k) hinv
    exact ⟨hinv2, by simpa [runInserts, hxs] using hxs2⟩

theorem mem_foldl_insFirst (l : List Nat) (acc : List Nat) (j : Nat) :
    j ∈ l.foldl insFirst acc ↔ j ∈ acc ∨ j ∈ l := by
  induction l generalizing acc with
  | nil => simp
  | cons k rest ih =>
    simp only [List.foldl_cons, ih, insFirst]
    by_cases hk : k ∈ acc
    · simp only [hk, if_true, List.mem_cons]
      constructor
      · rintro (h1 | h2)
        · exact Or.inl h1
        · exact Or.inr (Or.inr h2)
      · rintro (h1 | h2 | h3)
        · exact Or.inl h1
        · subst h2; exact Or.inl hk
        · exact Or.inr h3
    · simp only [hk, if_false, List.mem_append, List.mem_singleton,
        List.mem_cons]
      tauto

/-- Largest `key + 1` of a key list (0 when empty): the backing length a
run of growth operations produces. -/
def maxLen (ks : List Nat) : Nat :=
  ks.foldr (fun k a => max (k + 1) a) 0

theorem applyMapOp_length [Inhabited V] (s : IntMap V) (op : MapOp V) :
    (applyMapOp s op).map.length = max s.map.length (op.key + 1) := by
  cases op with
  | reserve k pad =>
    simp only [applyMapOp, IntMap.reserve, MapOp.key]
    split <;> simp_all <;> omega
  | reserveD k =>
    simp only [applyMapOp, IntMap.reserve_default, MapOp.key]
    split <;> simp_all <;> omega
  | ins k v pad =>
    simp only [applyMapOp, IntMap.insert, IntMap.reserve, MapOp.key]
    split <;> simp_all <;> omega
  | insD k v =>
    simp only [applyMapOp, IntMap.insert_default, IntMap.reserve_default,
      MapOp.key]
    split <;> simp_all <;> omega

theorem runMapOps_length [Inhabited V] (ops : List (MapOp V))
    (s : IntMap V) :
    (runMapOps s ops).map.length =
      max s.map.length (maxLen (mapOpKeys ops)) := by
  induction ops generalizing s with
  | nil => simp [runMapOps, mapOpKeys, maxLen]
  | cons op rest ih =>
    simp only [runMapOps, List.foldl_cons, mapOpKeys, List.map_cons,
      maxLen, List.foldr_cons] at *
    rw [ih (applyMapOp s op), applyMapOp_length]
    rw [Nat.max_assoc]

theorem maxLen_of_ne_nil (ks : List Nat) (h : ks ≠ []) :
    maxLen ks = 1 + ks.foldr max 0 := by
  induction ks with
  | nil => exact absurd rfl h
  | cons k rest ih =>
    by_cases hr : rest = []
    · subst hr
      simp only [maxLen, List.foldr_cons, List.foldr_nil]
      omega
    · simp only [maxLen, List.foldr_cons] at *
      rw [ih hr]
      omega

theorem le_maxLen_of_mem (ks : List Nat) (k : Nat) (h : k ∈ ks) :
    k + 1 ≤ maxLen ks := by
  induction ks with
  | nil => cases h
  | cons a rest ih =>
    simp only [maxLen, List.foldr_cons]
    rcases List.mem_cons.mp h with h1 | h2
    · omega
    · have := ih h2
      simp only [maxLen] at this
      omega

theorem not_mem_writeKeys_cons {V : Type} {j : Nat} {op : MapOp V}
    {rest : List (MapOp V)} (h : j ∉ writeKeys (op :: rest)) :
    j ∉ writeKeys [op] ∧ j ∉ writeKeys rest := by
  cases op <;> simp [writeKeys] at h ⊢ <;> tauto

theorem applyMapOp_read_keep [Inhabited V] (s : IntMap V) (op : MapOp V)
    (j : Nat) (hj : j < s.map.length) (hw : j ∉ writeKeys [op]) :
    (applyMapOp s op).read? j = s.read? j := by
  cases op with
  | reserve k pad =>
    simp only [applyMapOp, IntMap.reserve, IntMap.read?]
    split
    · exact List.getElem?_append_left hj
    · rfl
  | reserveD k =>
    simp only [applyMapOp, IntMap.reserve_default, IntMap.read?]
    split
    · exact List.getElem?_append_left hj
    · rfl
  | ins k v pad =>
    have hjk : j ≠ k := by simpa [writeKeys] using hw
    simp only [applyMapOp, IntMap.insert, IntMap.reserve, IntMap.read?]
    rw [List.getElem?_set_ne (fun he => hjk he.symm)]
    split
    · exact List.getElem?_append_left hj
    · rfl
  | insD k v =>
    have hjk : j ≠ k := by simpa [writeKeys] using hw
    simp only [applyMapOp, IntMap.insert_default, IntMap.reserve_default,
      IntMap.read?]
    rw [List.getElem?_set_ne (fun he => hjk he.symm)]
    split
    · exact List.getElem?_append_left hj
    · rfl

theorem applyMapOp_read_grown [Inhabited V] (s : IntMap V) (op : MapOp V)
    (j : Nat) (h1 : s.map.length ≤ j) (h2 : j ≤ op.key)
    (hw : j ∉ writeKeys [op]) :
    (applyMapOp s op).read? j = some op.padVal := by
  cases op with
  | reserve k pad =>
    simp only [applyMapOp, IntMap.reserve, IntMap.read?, MapOp.key,
      MapOp.padVal] at *
    rw [if_pos (by omega)]
    rw [List.getElem?_append_right h1]
    have hlt : j - s.map.length < k + 1 - s.map.length := by omega
    simp [hlt]
  | reserveD k =>
    simp only [applyMapOp, IntMap.reserve_default, IntMap.read?, MapOp.key,
      MapOp.padVal] at *
    rw [if_pos (by omega)]
    rw [List.getElem?_append_right h1]
    have hlt : j - s.map.length < k + 1 - s.map.length := by omega
    simp [hlt]
  | ins k v pad =>
    have hjk : j ≠ k := by simpa [writeKeys] using hw
    simp only [applyMapOp, IntMap.insert, IntMap.reserve, IntMap.read?,
      MapOp.key, MapOp.padVal] at *
    rw [List.getElem?_set_ne (fun he => hjk he.symm)]
    rw [if_pos (by omega)]
    rw [List.getElem?_append_right h1]
    have hlt : j - s.map.length < k + 1 - s.map.length := by omega
    simp [hlt]
  | insD k v =>
    have hjk : j ≠ k := by simpa [writeKeys] using hw
    simp only [applyMapOp, IntMap.insert_default, IntMap.reserve_default,
      IntMap.read?, MapOp.key, MapOp.padVal] at *
    rw [List.getElem?_set_ne (fun he => hjk he.symm)]
    rw [if_pos (by omega)]
    rw [List.getElem?_append_right h1]
    have hlt : j - s.map.length < k + 1 - s.map.length := by omega
    simp [hlt]

theorem runMapOps_read_keep [Inhabited V] (ops : List (MapOp V))
    (s : IntMap V) (j : Nat) (hj : j < s.map.length)
    (hw : j ∉ writeKeys ops) :
    (runMapOps s ops).read? j = s.read? j := by
  induction ops generalizing s with
  | nil => rfl
  | cons op rest ih =>
    obtain ⟨hw1, hw2⟩ := not_mem_writeKeys_cons hw
    have hj2 : j < (applyMapOp s op).map.length := by
      rw [applyMapOp_length]
      omega
    calc (runMapOps s (op :: rest)).read? j
        = (runMapOps (applyMapOp s op) rest).read? j := rfl
      _ = (applyMapOp s op).read? j := ih (applyMapOp s op) hj2 hw2
      _ = s.read? j := applyMapOp_read_keep s op j hj hw1

theorem runMapOps_read_padAt [Inhabited V] (ops : List (MapOp V))
    (s : IntMap V) (j : Nat) (hw : j ∉ writeKeys ops)
    (h1 : s.map.length ≤ j) (h2 : j < (runMapOps s ops).map.length) :
    (runMapOps s ops).read? j = padAt ops s.map.length j := by
  induction ops generalizing s with
  | nil =>
    simp only [runMapOps, List.foldl_nil] at h2
    omega
  | cons op rest ih =>
    obtain ⟨hw1, hw2⟩ := not_mem_writeKeys_cons hw
    have hrun : runMapOps s (op :: rest) =
        runMapOps (applyMapOp s op) rest := rfl
    by_cases hc : s.map.length ≤ j ∧ j ≤ op.key
    · have hr := applyMapOp_read_grown s op j hc.1 hc.2 hw1
      have hlt : j < (applyMapOp s op).map.length := by
        rw [applyMapOp_length]
        omega
      rw [hrun, runMapOps_read_keep rest (applyMapOp s op) j hlt hw2, hr,
        padAt, if_pos hc]
    · have hkey : op.key < j := by omega
      have h1' : (applyMapOp s op).map.length ≤ j := by
        rw [applyMapOp_length]
        omega
      have h2' : j < (runMapOps (applyMapOp s op) rest).map.length := by
        rw [← hrun]
        exact h2
      rw [hrun, ih (applyMapOp s op) hw2 h1' h2', padAt, if_neg hc,
        applyMapOp_length]

theorem digitChar_isDigit (n : Nat) (h : n < 10) :
    (Nat.digitChar n).isDigit = true := by
  interval_cases n <;> decide

theorem toDigitsCore_isDigit (f : Nat) :
    ∀ (n : Nat) (ds : List Char), (∀ c ∈ ds, c.isDigit = true) →
      ∀ c ∈ Nat.toDigitsCore 10 f n ds, c.isDigit = true := by
  induction f with
  | zero =>
    intro n ds hds c hc
    simpa [Nat.toDigitsCore] using hds c hc
  | succ f ih =>
    intro n ds hds c hc
    simp only [Nat.toDigitsCore] at hc
    have hcons : ∀ c ∈ (n % 10).digitChar :: ds, c.isDigit = true := by
      intro x hx
      rcases List.mem_cons.mp hx with h1 | h2
      · subst h1
        exact digitChar_isDigit _ (Nat.mod_lt _ (by decide))
      · exact hds x h2
    split at hc
    · exact hcons c hc
    · exact ih (n / 10) ((n % 10).digitChar :: ds) hcons c hc

theorem repr_isDigit (n : Nat) :
    ∀ c ∈ Nat.toDigits 10 n, c.isDigit = true :=
  toDigitsCore_isDigit (n + 1) n [] (by simp)

theorem cr_repr_ne_crUNDEF (n : Nat) : "cr" ++ Nat.repr n ≠ "crUNDEF" := by
  intro h
  have hdata := congrArg String.data h
  rw [String.data_append] at hdata
  have hdd : ('c' :: 'r' :: Nat.toDigits 10 n) =
      ['c', 'r', 'U', 'N', 'D', 'E', 'F'] := hdata
  have hU : 'U' ∈ Nat.toDigits 10 n := by
    have := List.cons.inj (List.cons.inj hdd).2
    rw [this.2]
    simp
  have := repr_isDigit n 'U' hU
  exact absurd this (by decide)

theorem cr_repr_ne_crSPECIAL (n : Nat) :
    "cr" ++ Nat.repr n ≠ "crSPECIAL" := by
  intro h
  have hdata := congrArg String.data h
  rw [String.data_append] at hdata
  have hdd : ('c' :: 'r' :: Nat.toDigits 10 n) =
      ['c', 'r', 'S', 'P', 'E', 'C', 'I', 'A', 'L'] := hdata
  have hS : 'S' ∈ Nat.toDigits 10 n := by
    have := List.cons.inj (List.cons.inj hdd).2
    rw [this.2]
    simp
  have := repr_isDigit n 'S' hS
  exact absurd this (by decide)

/-! ### Claim theorems -/

/-- C1: for every insertion sequence `l` (repeats allowed) applied to a
fresh `IntSet`, the ordered sequence (`as_slice`) is the list of distinct
keys of `l` in order of first insertion, `len()` is the number of distinct
keys, membership matches occurrence in `l`, and the sequence
`[3, 1, 3, 2]` yields `[3, 1, 2]` with `len = 3`, `has 3`, `¬ has 5`. -/
theorem IntSet.insertion_order (l : List Nat) (k : Nat) :
    (runInserts IntSet.new l).as_slice = dedupFirst l ∧
    (runInserts IntSet.new l).len = l.toFinset.card ∧
    (dedupFirst l).Nodup ∧
    ((runInserts IntSet.new l).has k = true ↔ k ∈ l) ∧
    ((runInserts IntSet.new [3, 1, 3, 2]).as_slice = [3, 1, 2] ∧
      (runInserts IntSet.new [3, 1, 3, 2]).len = 3 ∧
      (runInserts IntSet.new [3, 1, 3, 2]).has 3 = true ∧
      (runInserts IntSet.new [3, 1, 3, 2]).has 5 = false) := by
  obtain ⟨⟨hnd, hmem⟩, hxs⟩ := runInserts_spec l IntSet.new setInv_new
  have hxs' : (runInserts IntSet.new l).xs = dedupFirst l := by
    simpa [IntSet.new, dedupFirst] using hxs
  have hndd : (dedupFirst l).Nodup := hxs' ▸ hnd
  have hmemd : ∀ j, j ∈ dedupFirst l ↔ j ∈ l := by
    intro j
    rw [dedupFirst, mem_foldl_insFirst]
    simp
  have hfin : (dedupFirst l).toFinset = l.toFinset := by
    ext x
    simp only [List.mem_toFinset]
    exact hmemd x
  refine ⟨by rw [IntSet.as_slice, hxs'], ?_, hndd, ?_, by decide⟩
  · rw [IntSet.len, hxs', ← hfin, List.toFinset_card_of_nodup hndd]
  · rw [hmem k, hxs', hmemd k]

/-- C2: for `EmptyTheory`, any sequence of `create_level` calls (`k` of
them) interleaved with in-range `pop_levels` calls (arguments summing to
`p`) leaves `n_levels() = k - p` with `p ≤ k`; a `pop_levels` whose
argument exceeds the current level count is a contract violation (`none`);
and `create_level, create_level, pop_levels(1)` leaves `n_levels() = 1`. -/
theorem EmptyTheory.levels_balance (ops : List TheoryOp) (u : EmptyTheory)
    (h : runTheoryOps EmptyTheory.new ops = some u)
    (t : EmptyTheory) (n : Nat) (hn : t.levels < n) :
    (popSum ops ≤ createCount ops ∧
      u.n_levels = createCount ops - popSum ops) ∧
    t.pop_levels n = none ∧
    (runTheoryOps EmptyTheory.new
        [TheoryOp.create, TheoryOp.create, TheoryOp.pop 1]).map
      EmptyTheory.n_levels = some 1 := by
  have hlev := runTheoryOps_levels ops EmptyTheory.new u h
  simp only [EmptyTheory.new] at hlev
  refine ⟨⟨?_, ?_⟩, ?_, by decide⟩
  · omega
  · simp only [EmptyTheory.n_levels]; omega
  · simp only [EmptyTheory.pop_levels, if_neg (by omega : ¬ n ≤ t.levels)]

/-- Witness for C2: the scenario-C sequence. -/
theorem EmptyTheory.levels_balance_witness :
    (popSum [TheoryOp.create, TheoryOp.create, TheoryOp.pop 1] ≤
        createCount [TheoryOp.create, TheoryOp.create, TheoryOp.pop 1] ∧
      EmptyTheory.n_levels ⟨1⟩ =
        createCount [TheoryOp.create, TheoryOp.create, TheoryOp.pop 1] -
          popSum [TheoryOp.create, TheoryOp.create, TheoryOp.pop 1]) ∧
    EmptyTheory.pop_levels ⟨0⟩ 1 = none ∧
    (runTheoryOps EmptyTheory.new
        [TheoryOp.create, TheoryOp.create, TheoryOp.pop 1]).map
      EmptyTheory.n_levels = some 1 :=
  EmptyTheory.levels_balance
    [TheoryOp.create, TheoryOp.create, TheoryOp.pop 1] ⟨1⟩ (by decide)
    ⟨0⟩ 1 (by decide)

/-- C4: after any sequence of `reserve`/`insert` operations on a fresh
`IntMap`, every slot below the current length that was never the target of
an explicit write reads as the pad (or default) value supplied by the
operation that first grew the map to cover it. -/
theorem IntMap.unwritten_slots_hold_pad (V : Type) [Inhabited V]
    (ops : List (MapOp V)) (i : Nat)
    (h1 : i < (runMapOps (IntMap.new V) ops).map.length)
    (h2 : i ∉ writeKeys ops) :
    (runMapOps (IntMap.new V) ops).read? i = padAt ops 0 i := by
  have h0 : (IntMap.new V).map.length = 0 := rfl
  have := runMapOps_read_padAt ops (IntMap.new V) i h2
    (by omega) h1
  rwa [h0] at this

/-- Witness for C4, scenario A: `reserve(5, pad = 0)` on an empty
integer-valued map makes the length 6, and index 3 — never explicitly
written — reads as the pad 0. -/
theorem IntMap.unwritten_slots_hold_pad_witness :
    (runMapOps (IntMap.new Int) [MapOp.reserve 5 0]).read? 3 =
      padAt [MapOp.reserve 5 (0 : Int)] 0 3 ∧
    (runMapOps (IntMap.new Int) [MapOp.reserve 5 0]).map.length = 6 ∧
    padAt [MapOp.reserve 5 (0 : Int)] 0 3 = some 0 ∧
    (runMapOps (IntMap.new Int) [MapOp.reserve 5 0]).map =
      [0, 0, 0, 0, 0, 0] :=
  ⟨IntMap.unwritten_slots_hold_pad Int [MapOp.reserve 5 0] 3 (by decide)
      (by decide),
    by decide, by decide, by decide⟩

/-- C5: after `clear()`, `has(k)` is false for every key on all three
containers until the key is reserved (or inserted) again; a subsequent
`free()` leaves `IntMap`/`IntMapBool` in the freshly-constructed state.
`IntSet` has no `free` method, but its `clear` alone already restores the
freshly-constructed state, so every later operation behaves as on a fresh
set. -/
theorem clear_then_free_is_fresh (V : Type) (m : IntMap V) (pad : V)
    (b : IntMapBool) (s : IntSet) (k : Nat) :
    (m.clear.has k = false ∧ m.clear.free = IntMap.new V ∧
      (m.clear.reserve k pad).has k = true) ∧
    (b.clear.has k = false ∧ b.clear.free = IntMapBool.new ∧
      (b.clear.reserve k).has k = true) ∧
    (s.clear.has k = false ∧ s.clear = IntSet.new ∧
      (s.clear.insert k).has k = true) := by
  refine ⟨⟨?_, rfl, ?_⟩, ⟨?_, rfl, ?_⟩, ⟨?_, rfl, ?_⟩⟩
  · simp [IntMap.clear, IntMap.has]
  · simp [IntMap.clear, IntMap.reserve, IntMap.has]
  · simp [IntMapBool.clear, IntMapBool.has]
  · simp [IntMapBool.clear, IntMapBool.reserve, IntMapBool.has]
  · simp [IntSet.clear, IntSet.has, IntMapBool.clear, IntMapBool.has]
  · simp [IntSet.clear, IntSet.insert, IntSet.has, IntMapBool.clear,
      IntMapBool.reserve, IntMapBool.read?, IntMapBool.has]

/-- C6: `EmptyTheory`'s `final_check` and inherited `partial_check` return
with the theory state and the argument (hence its conflict output)
unchanged — no conflict is ever raised — and
`explain_propagation_clause` is unreachable (`none`) for every literal. -/
theorem EmptyTheory.checks_noop (t : EmptyTheory) (a : TheoryArg)
    (p : Lit) (st : ExplainTheoryArg) :
    EmptyTheory.final_check t a = (t, a) ∧
    EmptyTheory.pcheck t a = (t, a) ∧
    (EmptyTheory.final_check t a).2.conflict = a.conflict ∧
    (EmptyTheory.pcheck t a).2.conflict = a.conflict ∧
    EmptyTheory.explain_propagation_clause t p st = none :=
  ⟨rfl, rfl, rfl, rfl, rfl⟩

/-- C9: the `Debug` rendering of a `ClauseRef` renders the two sentinels
as the distinct symbolic tokens `crUNDEF` and `crSPECIAL`, and every other
handle as `"cr"` followed by the decimal form of its underlying integer;
the three renderings are pairwise distinct. -/
theorem ClauseRef.debug_renders_distinct (c : ClauseRef)
    (h1 : c ≠ ClauseRef.UNDEF) (h2 : c ≠ ClauseRef.SPECIAL) :
    ClauseRef.fmtDebug ClauseRef.UNDEF = "crUNDEF" ∧
    ClauseRef.fmtDebug ClauseRef.SPECIAL = "crSPECIAL" ∧
    ClauseRef.fmtDebug ClauseRef.UNDEF ≠
      ClauseRef.fmtDebug ClauseRef.SPECIAL ∧
    ClauseRef.fmtDebug c = "cr" ++ Nat.repr c.val ∧
    ClauseRef.fmtDebug c ≠ ClauseRef.fmtDebug ClauseRef.UNDEF ∧
    ClauseRef.fmtDebug c ≠ ClauseRef.fmtDebug ClauseRef.SPECIAL := by
  have hu : ClauseRef.fmtDebug ClauseRef.UNDEF = "crUNDEF" := by decide
  have hs : ClauseRef.fmtDebug ClauseRef.SPECIAL = "crSPECIAL" := by
    decide
  have hc : ClauseRef.fmtDebug c = "cr" ++ Nat.repr c.val := by
    rw [ClauseRef.fmtDebug, if_neg h1, if_neg h2]
  refine ⟨hu, hs, by decide, hc, ?_, ?_⟩
  · rw [hc, hu]
    exact cr_repr_ne_crUNDEF c.val
  · rw [hc, hs]
    exact cr_repr_ne_crSPECIAL c.val

/-- Witness for C9: the non-sentinel handle 42. -/
theorem ClauseRef.debug_renders_distinct_witness :
    ClauseRef.fmtDebug ClauseRef.UNDEF = "crUNDEF" ∧
    ClauseRef.fmtDebug ClauseRef.SPECIAL = "crSPECIAL" ∧
    ClauseRef.fmtDebug ClauseRef.UNDEF ≠
      ClauseRef.fmtDebug ClauseRef.SPECIAL ∧
    ClauseRef.fmtDebug ⟨42⟩ = "cr" ++ Nat.repr 42 ∧
    ClauseRef.fmtDebug ⟨42⟩ ≠ ClauseRef.fmtDebug ClauseRef.UNDEF ∧
    ClauseRef.fmtDebug ⟨42⟩ ≠ ClauseRef.fmtDebug ClauseRef.SPECIAL :=
  ClauseRef.debug_renders_distinct ⟨42⟩ (by decide) (by decide)

/-- C10: `IntMap::iter` yields exactly one `(key, value)` pair per backing
slot, in ascending index order (the pair at position `i` is `(i, map[i])`,
pad-filled slots included), so the number of pairs equals the length. -/
theorem IntMap.iter_enumerates (V : Type) (s : IntMap V) (i : Nat) :
    s.iter.length = s.map.length ∧
    s.iter[i]? = (s.read? i).map fun v => (i, v) := by
  refine ⟨List.enum_length, ?_⟩
  simp [IntMap.iter, IntMap.read?, List.getElem?_enum]

/-- C3: after any non-empty sequence of `reserve`/`reserve_default`/
`insert`/`insert_default` calls on a fresh `IntMap`, `has(k)` holds for
every key addressed by the sequence, and the backing length equals
`1 + max(index(k))` over all keys ever addressed. -/
theorem IntMap.length_is_succ_max_key (V : Type) [Inhabited V]
    (ops : List (MapOp V)) (hne : ops ≠ []) (k : Nat)
    (hk : k ∈ mapOpKeys ops) :
    (runMapOps (IntMap.new V) ops).has k = true ∧
    (runMapOps (IntMap.new V) ops).map.length =
      1 + (mapOpKeys ops).foldr max 0 := by
  have hlen : (runMapOps (IntMap.new V) ops).map.length =
      maxLen (mapOpKeys ops) := by
    rw [runMapOps_length]
    simp [IntMap.new]
  have hkeys : mapOpKeys ops ≠ [] := by
    intro h
    apply hne
    simpa [mapOpKeys] using h
  have hmax := maxLen_of_ne_nil (mapOpKeys ops) hkeys
  have hmem := le_maxLen_of_mem (mapOpKeys ops) k hk
  constructor
  · simp only [IntMap.has, decide_eq_true_eq]
    omega
  · omega

/-- Witness for C3: `insert 2` then `reserve 4` on a fresh integer map. -/
theorem IntMap.length_is_succ_max_key_witness :
    (runMapOps (IntMap.new Int)
        [MapOp.ins 2 5 0, MapOp.reserve 4 0]).has 2 = true ∧
    (runMapOps (IntMap.new Int)
        [MapOp.ins 2 5 0, MapOp.reserve 4 0]).map.length =
      1 + (mapOpKeys [MapOp.ins 2 (5 : Int) 0,
        MapOp.reserve 4 0]).foldr max 0 :=
  IntMap.length_is_succ_max_key Int [MapOp.ins 2 5 0, MapOp.reserve 4 0]
    (by decide) 2 (by decide)

/-- C7: on `IntMapBool`, `set(k, b)` has precondition `has(k)`: when
`has(k)` holds the write succeeds and a subsequent indexed read of `k`
returns `b`; on an un-reserved key both `set` and the indexed read are
out-of-bounds panics (`none`), not recoverable results. -/
theorem IntMapBool.set_requires_has (s : IntMapBool) (k : Nat) (b : Bool) :
    (s.has k = true →
      ∃ s2, s.set k b = some s2 ∧ s2.read? k = some b) ∧
    (s.has k = false → s.set k b = none ∧ s.read? k = none) := by
  constructor
  · intro h
    have hk : k < s.map.length := by simpa [IntMapBool.has] using h
    refine ⟨⟨s.map.set k b⟩, ?_, ?_⟩
    · simp [IntMapBool.set, hk]
    · simp only [IntMapBool.read?]
      exact List.getElem?_set_eq_of_lt b (by simpa using hk)
  · intro h
    have hk : ¬ k < s.map.length := by simpa [IntMapBool.has] using h
    exact ⟨by simp [IntMapBool.set, hk],
      by simp [IntMapBool.read?, List.getElem?_eq_none (Nat.not_lt.mp hk)]⟩

/-- Witness for C7: a bitset reserved through index 2, written in bounds
at index 1 and probed out of bounds at index 5. -/
theorem IntMapBool.set_requires_has_witness :
    (∃ s2, (IntMapBool.new.insert 2).set 1 true = some s2 ∧
      s2.read? 1 = some true) ∧
    ((IntMapBool.new.insert 2).set 5 true = none ∧
      (IntMapBool.new.insert 2).read? 5 = none) :=
  ⟨(IntMapBool.set_requires_has (IntMapBool.new.insert 2) 1 true).1
      (by decide),
    (IntMapBool.set_requires_has (IntMapBool.new.insert 2) 5 true).2
      (by decide)⟩

/-- C8: `IntSet::has` is total: it returns `true` exactly when the
membership bit of `k` is set, and returns `false` — rather than an
out-of-bounds panic — for a key whose index was never reserved in the
underlying bitset. -/
theorem IntSet.has_total (s : IntSet) (k : Nat) :
    (s.has k = true ↔ s.in_set.read? k = some true) ∧
    (s.in_set.has k = false → s.has k = false) := by
  constructor
  · cases hk : s.in_set.read? k with
    | none =>
      have hlen : s.in_set.map.length ≤ k := by
        simpa [IntMapBool.read?, List.getElem?_eq_none_iff] using hk
      simp [IntSet.has, IntMapBool.has, hk, Nat.not_lt.mpr hlen]
    | some b =>
      have hlen : k < s.in_set.map.length := by
        by_contra hc
        rw [IntMapBool.read?, List.getElem?_eq_none (by omega)] at hk
        exact Option.noConfusion hk
      cases b <;> simp [IntSet.has, IntMapBool.has, hk, hlen]
  · intro h
    have hlen : ¬ k < s.in_set.map.length := by
      simpa [IntMapBool.has] using h
    simp [IntSet.has, IntMapBool.has, hlen]

/-- Witness for C8: the set `{3}`; key 7 was never reserved and reads
`false`, key 3 satisfies the membership-bit characterization. -/
theorem IntSet.has_total_witness :
    (runInserts IntSet.new [3]).has 7 = false ∧
    ((runInserts IntSet.new [3]).has 3 = true ↔
      (runInserts IntSet.new [3]).in_set.read? 3 = some true) :=
  ⟨(IntSet.has_total (runInserts IntSet.new [3]) 7).2 (by decide),
    (IntSet.has_total (runInserts IntSet.new [3]) 3).1⟩

end Platsat
